import Mathlib

/-!
Shallow embedding of the opensearch shard-metrics collector
(`package opensearch`: `convertStoreToBytes`, `fetchShardInfo`, and the
observation callback registered by `CollectMetrics`), together with the
pieces of the Go standard library the source calls into
(`strings.TrimSpace`, `strings.HasSuffix`/`TrimSuffix`,
`strconv.ParseFloat`).

Numeric idealization: Go's `float64` values are modelled exactly — a
finite value is an exact rational, plus distinguished infinities and NaN
(`GoFloat`).  IEEE-754 rounding, overflow to infinity and the resulting
`ErrRange` of `strconv.ParseFloat` are idealized away; no claim below
depends on them.  Strings are modelled as their character lists
(the inputs involved are ASCII, where Go's byte-wise scanning and
character-wise scanning agree).
-/

/-- Go `lower(c) = c | 0x20` as used byte-wise in `strconv`; on the
ASCII letters (the only characters it is ever compared against) this is
ASCII lower-casing, which is what we model (stated on code points:
65–90 are `A`–`Z`). -/
def lowerChar (c : Char) : Char :=
  if 65 ≤ c.toNat ∧ c.toNat ≤ 90 then Char.ofNat (c.toNat + 32) else c

/-- ASCII decimal digit test, `'0' <= c && c <= '9'` in the Go source
(code points 48–57). -/
def isDigitChar (c : Char) : Bool :=
  decide (48 ≤ c.toNat ∧ c.toNat ≤ 57)

/-- Go `unicode.IsSpace`: the Unicode White_Space code points. -/
def isGoSpace (c : Char) : Bool :=
  decide (c.toNat = 9 ∨ c.toNat = 10 ∨ c.toNat = 11 ∨ c.toNat = 12 ∨
    c.toNat = 13 ∨ c.toNat = 32 ∨ c.toNat = 133 ∨ c.toNat = 160 ∨
    c.toNat = 0x1680 ∨ (0x2000 ≤ c.toNat ∧ c.toNat ≤ 0x200a) ∨
    c.toNat = 0x2028 ∨ c.toNat = 0x2029 ∨ c.toNat = 0x202f ∨
    c.toNat = 0x205f ∨ c.toNat = 0x3000)

/-- Go `strings.TrimSpace`: drop leading and trailing white space. -/
def trimSpace (l : List Char) : List Char :=
  ((l.dropWhile isGoSpace).reverse.dropWhile isGoSpace).reverse

/-- Go `strings.HasSuffix s suffix`:
`len(s) >= len(suffix) && s[len(s)-len(suffix):] == suffix`. -/
def hasSuffix (l suf : List Char) : Bool :=
  decide (suf.length ≤ l.length) && decide (l.drop (l.length - suf.length) = suf)

/-- Go `strings.TrimSuffix`: remove the suffix when present. -/
def trimSuffix (l suf : List Char) : List Char :=
  if hasSuffix l suf then l.take (l.length - suf.length) else l

/-- Exact model of a Go `float64` value: an exact rational, an infinity,
or NaN (see the file header for the idealization). -/
inductive GoFloat where
  | finite (q : ℚ)
  | inf (neg : Bool)
  | nan
deriving DecidableEq

/-- Multiplication of a `GoFloat` by a positive rational constant (the
unit multipliers 2^10, 2^20, 2^30): IEEE gives `±Inf * m = ±Inf` and
`NaN * m = NaN` for finite positive `m`. -/
def GoFloat.mulPos : GoFloat → ℚ → GoFloat
  | .finite q, m => .finite (q * m)
  | .inf b, _ => .inf b
  | .nan, _ => .nan

/-- Whether a `GoFloat` is a finite value (not NaN, not an infinity). -/
def GoFloat.isFinite : GoFloat → Bool
  | .finite _ => true
  | _ => false

/-- Case-insensitive match of a character list against a lower-case
ASCII pattern, as `strconv`'s `commonPrefixLenIgnoreCase` does byte-wise
(here only ever used for a full-length match, since `ParseFloat`
requires the whole input consumed). -/
def matchesCI (l pat : List Char) : Bool :=
  l.map lowerChar = pat

/-- Whole-string case-insensitive match of `inf` or `infinity`. -/
def infWord (l : List Char) : Bool :=
  matchesCI l ['i', 'n', 'f'] || matchesCI l ['i', 'n', 'f', 'i', 'n', 'i', 't', 'y']

/-- Go `strconv`'s `special`, restricted to full-string matches (partial
matches make `ParseFloat` fail on the unconsumed tail): optionally
signed `inf`/`infinity`, or unsigned `nan`, case-insensitively.  A sign
followed by `nan` is not accepted, exactly as in the Go source. -/
def special : List Char → Option GoFloat
  | [] => none
  | c :: rest =>
    if c = '+' then (if infWord rest then some (.inf false) else none)
    else if c = '-' then (if infWord rest then some (.inf true) else none)
    else if infWord (c :: rest) then some (.inf false)
    else if matchesCI (c :: rest) ['n', 'a', 'n'] then some .nan
    else none

/-- Digit value in the given base (10 or 16), mirroring the digit cases
of Go `readFloat`'s mantissa loop. -/
def digitVal (base : ℕ) (c : Char) : Option ℕ :=
  if isDigitChar c then some (c.toNat - 48)
  else if base = 16 ∧ 97 ≤ (lowerChar c).toNat ∧ (lowerChar c).toNat ≤ 102 then
    some ((lowerChar c).toNat - 87)
  else none

/-- State of Go `readFloat`'s mantissa loop.  `mant` accumulates all
digits exactly (Go truncates past 19 digits — a precision detail
idealized away), `fracDigits` counts digits after the dot (Go
equivalently tracks the decimal-point position `dp`). -/
structure MantState where
  mant : ℕ
  fracDigits : ℕ
  sawdot : Bool
  sawdigits : Bool
  underscores : Bool
deriving DecidableEq

/-- Initial mantissa-loop state. -/
def initState : MantState := ⟨0, 0, false, false, false⟩

/-- Go `readFloat`'s mantissa loop: consumes digits, underscores and at
most one dot, returning the state and the unconsumed rest. -/
def mantLoop (base : ℕ) : List Char → MantState → MantState × List Char
  | [], st => (st, [])
  | c :: rest, st =>
    if c = '_' then mantLoop base rest { st with underscores := true }
    else if c = '.' then
      if st.sawdot then (st, c :: rest)
      else mantLoop base rest { st with sawdot := true }
    else
      match digitVal base c with
      | some d =>
        mantLoop base rest
          { st with
            mant := st.mant * base + d
            fracDigits := st.fracDigits + (if st.sawdot then 1 else 0)
            sawdigits := true }
      | none => (st, c :: rest)

/-- Go `readFloat`'s exponent-digit loop: decimal digits and
underscores up to the end of the input (anything else is unconsumed
input, which makes `ParseFloat` fail). -/
def expDigits : List Char → ℕ → Bool → Option (ℕ × Bool)
  | [], acc, u => some (acc, u)
  | c :: rest, acc, u =>
    if c = '_' then expDigits rest acc true
    else
      match digitVal 10 c with
      | some d => expDigits rest (acc * 10 + d) u
      | none => none

/-- The part of Go `readFloat` after the exponent character: optional
sign, then at least one decimal digit, then digits/underscores to the
end.  Returns the signed exponent and whether underscores were seen. -/
def readExp (l : List Char) : Option (ℤ × Bool) :=
  match l with
  | [] => none
  | c :: rest =>
    let p : Bool × List Char :=
      if c = '+' then (false, rest)
      else if c = '-' then (true, rest)
      else (false, c :: rest)
    match p.2 with
    | [] => none
    | d :: _ =>
      if (digitVal 10 d).isSome then
        (expDigits p.2 0 false).map
          (fun r => (if p.1 then -(r.1 : ℤ) else (r.1 : ℤ), r.2))
      else none

/-- Loop of Go `strconv.underscoreOK`: `saw` is the class of the last
character (start of number, digit/base prefix, underscore, other). -/
def underscoreLoop (hex : Bool) : Char → List Char → Bool
  | saw, [] => !(saw == '_')
  | saw, c :: rest =>
    if (48 ≤ c.toNat ∧ c.toNat ≤ 57) ∨
        (hex = true ∧ 97 ≤ (lowerChar c).toNat ∧ (lowerChar c).toNat ≤ 102) then
      underscoreLoop hex '0' rest
    else if c = '_' then
      (if saw = '0' then underscoreLoop hex '_' rest else false)
    else if saw = '_' then false
    else underscoreLoop hex '!' rest

/-- Go `strconv.underscoreOK`: underscores may appear only between
digits or between a base prefix and a digit. -/
def underscoreOK (l : List Char) : Bool :=
  let l1 := match l with
    | c :: rest => if c = '+' ∨ c = '-' then rest else l
    | [] => l
  match l1 with
  | '0' :: x :: rest =>
    if lowerChar x = 'x' then underscoreLoop true '0' rest
    else underscoreLoop false '^' l1
  | _ => underscoreLoop false '^' l1

/-- Exact value of a decimal mantissa/exponent reading: sign applied to
`mant / 10^fracDigits * 10^e`. -/
def mkDecValue (neg : Bool) (mant fracDigits : ℕ) (e : ℤ) : ℚ :=
  let q : ℚ := (mant : ℚ) / 10 ^ fracDigits
  let q := if 0 ≤ e then q * 10 ^ e.toNat else q / 10 ^ (-e).toNat
  if neg then -q else q

/-- Exact value of a hexadecimal mantissa with binary exponent: sign
applied to `mant / 16^fracDigits * 2^e`. -/
def mkHexValue (neg : Bool) (mant fracDigits : ℕ) (e : ℤ) : ℚ :=
  let q : ℚ := (mant : ℚ) / 16 ^ fracDigits
  let q := if 0 ≤ e then q * 2 ^ e.toNat else q / 2 ^ (-e).toNat
  if neg then -q else q

/-- Final acceptance step: if underscores were seen anywhere, the whole
consumed string (here: the whole input) must pass `underscoreOK`. -/
def finishNum (v : ℚ) (underscores : Bool) (orig : List Char) : Option GoFloat :=
  if underscores && !(underscoreOK orig) then none else some (.finite v)

/-- Decimal branch of Go `readFloat` with `ParseFloat`'s whole-input
requirement: mantissa with at least one digit, then either the end of
the input or an `e`/`E` exponent reaching the end. -/
def decCore (neg : Bool) (l orig : List Char) : Option GoFloat :=
  let r := mantLoop 10 l initState
  if r.1.sawdigits = false then none
  else
    match r.2 with
    | [] => finishNum (mkDecValue neg r.1.mant r.1.fracDigits 0) r.1.underscores orig
    | c :: rest2 =>
      if lowerChar c = 'e' then
        match readExp rest2 with
        | none => none
        | some (e, u2) =>
          finishNum (mkDecValue neg r.1.mant r.1.fracDigits e) (r.1.underscores || u2) orig
      else none

/-- Hexadecimal branch of Go `readFloat`: hex mantissa with at least
one digit, then a mandatory `p`/`P` binary exponent reaching the end. -/
def hexCore (neg : Bool) (l orig : List Char) : Option GoFloat :=
  let r := mantLoop 16 l initState
  if r.1.sawdigits = false then none
  else
    match r.2 with
    | [] => none
    | c :: rest2 =>
      if lowerChar c = 'p' then
        match readExp rest2 with
        | none => none
        | some (e, u2) =>
          finishNum (mkHexValue neg r.1.mant r.1.fracDigits e) (r.1.underscores || u2) orig
      else none

/-- Number body after the optional sign: Go switches to hexadecimal on
`0x`/`0X` only when at least one character follows it
(`i+2 < len(s)` in `readFloat`). -/
def numberCore (neg : Bool) (l orig : List Char) : Option GoFloat :=
  match l with
  | a :: x :: c :: rest =>
    if a = '0' ∧ lowerChar x = 'x' then hexCore neg (c :: rest) orig
    else decCore neg (a :: x :: c :: rest) orig
  | _ => decCore neg l orig

/-- Signed number grammar of Go `readFloat`, whole input. -/
def parseNumber (l : List Char) : Option GoFloat :=
  match l with
  | [] => numberCore false [] []
  | c :: rest =>
    if c = '+' then numberCore false rest l
    else if c = '-' then numberCore true rest l
    else numberCore false (c :: rest) l

/-- Go `strconv.ParseFloat(s, 64)` on the whole input, with exact
values: the `special` forms first, else the signed number grammar. -/
def parseGoFloat (l : List Char) : Option GoFloat :=
  match special l with
  | some v => some v
  | none => parseNumber l

/-- Failure cases of `convertStoreToBytes`: `unknownUnit s` models
`fmt.Errorf("unknown size unit in: %s", store)` (payload: the string
interpolated there), `malformedNumber s` models
`fmt.Errorf("failed to parse size value: %w", err)` whose wrapped
`strconv.NumError` carries the string passed to `ParseFloat`. -/
inductive SizeError where
  | unknownUnit (s : String)
  | malformedNumber (s : String)
deriving DecidableEq

/-- The suffix switch of `convertStoreToBytes`: `kb`, then `mb`, then
`gb`, returning the multiplier and the suffix-stripped string. -/
def storeSuffixSplit (t : List Char) : Option (ℚ × List Char) :=
  if hasSuffix t ['k', 'b'] then some (1024, trimSuffix t ['k', 'b'])
  else if hasSuffix t ['m', 'b'] then some (1048576, trimSuffix t ['m', 'b'])
  else if hasSuffix t ['g', 'b'] then some (1073741824, trimSuffix t ['g', 'b'])
  else none

/-- Embedding of the Go function `convertStoreToBytes`: trim white
space; empty means zero; strip a recognized unit suffix (else
`unknownUnit` with the trimmed string); parse the remainder with
`strconv.ParseFloat` (else `malformedNumber` with the remainder);
multiply by the unit multiplier. -/
def convertStoreToBytes (store : String) : Except SizeError GoFloat :=
  let t := trimSpace store.data
  if t = [] then .ok (.finite 0)
  else
    match storeSuffixSplit t with
    | none => .error (.unknownUnit (String.mk t))
    | some (m, rem) =>
      match parseGoFloat rem with
      | none => .error (.malformedNumber (String.mk rem))
      | some v => .ok (v.mulPos m)

/-- One row of the `_cat/shards` response, the Go struct `ShardInfo`
(JSON field names `index, shard, prirep, state, docs, store, ip,
node`). -/
structure ShardInfo where
  index : String
  shard : String
  prirep : String
  state : String
  docs : String
  store : String
  ip : String
  node : String
deriving DecidableEq

/-- Outcome of one loop iteration of `fetchShardInfo` for a given index
name, summarizing the external collaborators: request construction
(`http.NewRequestWithContext`), transport (`client.Do`, whose non-nil
errors are documented to be `*url.Error` values rendering as
`Get "URL": inner`), and the JSON decode of the response body. -/
inductive ReqOutcome where
  | newReqFail (msg : String)
  | doFail (inner : String)
  | decodeFail (msg : String)
  | okResp (shards : List ShardInfo)

/-- Whether the outcome is one of the three failure cases. -/
def ReqOutcome.isFailure : ReqOutcome → Bool
  | .okResp _ => false
  | _ => true

/-- Whether the iteration reaches `client.Do` (request construction
failure aborts before any request is issued). -/
def ReqOutcome.issuesRequest : ReqOutcome → Bool
  | .newReqFail _ => false
  | _ => true

/-- The URL built by `fetchShardInfo`:
`fmt.Sprintf("%s/_cat/shards/%s?format=json", c.endpoint, index)`. -/
def shardURL (endpoint index : String) : String :=
  endpoint ++ "/_cat/shards/" ++ index ++ "?format=json"

/-- Rendering of the `client.Do` error wrapped by `fetchShardInfo`:
`fmt.Errorf("failed to execute request: %w", err)` where `err` is the
`*url.Error` printing `Get "URL": inner` (the URLs here consist of
printable non-quote characters, so Go's %q quoting is plain). -/
def doFailMsg (url inner : String) : String :=
  "failed to execute request: Get \"" ++ url ++ "\": " ++ inner

/-- The loop of `fetchShardInfo` over the index names, with the
accumulator `allShards`; also records the URL of every request actually
issued (each `client.Do` call), in order. -/
def fetchLoop (endpoint : String) (oracle : String → ReqOutcome) :
    List String → List ShardInfo → List String × Except String (List ShardInfo)
  | [], acc => ([], .ok acc)
  | idx :: rest, acc =>
    match oracle idx with
    | .newReqFail m => ([], .error ("failed to create request: " ++ m))
    | .doFail inner =>
      ([shardURL endpoint idx], .error (doFailMsg (shardURL endpoint idx) inner))
    | .decodeFail m =>
      ([shardURL endpoint idx], .error ("failed to decode response: " ++ m))
    | .okResp shards =>
      let r := fetchLoop endpoint oracle rest (acc ++ shards)
      (shardURL endpoint idx :: r.1, r.2)

/-- Embedding of the Go method `fetchShardInfo`: the loop above over
the hardcoded index names, starting from the nil accumulator.  Returns
the request trace and the result. -/
def fetchShardInfo (endpoint : String) (oracle : String → ReqOutcome) :
    List String × Except String (List ShardInfo) :=
  fetchLoop endpoint oracle ["otlp-metrics", "otlp-logs"] []

/-- One gauge observation as emitted by `o.ObserveFloat64`: the value
and the six string attributes, in the order the Go callback builds
them. -/
structure Observation where
  value : GoFloat
  index : String
  shard : String
  prirep : String
  state : String
  node : String
  ip : String
deriving DecidableEq

/-- The observation the callback emits for one record: value from
`convertStoreToBytes`, labels copied verbatim from the record. -/
def obsOf (sh : ShardInfo) (v : GoFloat) : Observation :=
  ⟨v, sh.index, sh.shard, sh.prirep, sh.state, sh.node, sh.ip⟩

/-- The record loop of the callback in `CollectMetrics`: convert each
record's store size, returning on the first conversion error; `acc`
collects the `ObserveFloat64` calls made so far (which in Go happen
before a later record fails). -/
def observeShards : List ShardInfo → List Observation → List Observation × Option SizeError
  | [], acc => (acc, none)
  | sh :: rest, acc =>
    match convertStoreToBytes sh.store with
    | .error e => (acc, some e)
    | .ok v => observeShards rest (acc ++ [obsOf sh v])

/-- Error returned by one invocation of the registered callback:
either the wrapped fetch failure
(`fmt.Errorf("failed to fetch shard info: %w", err)`) or the wrapped
conversion failure
(`fmt.Errorf("failed to convert store size: %w", err)`). -/
inductive CallbackError where
  | fetchFailed (msg : String)
  | convertFailed (e : SizeError)
deriving DecidableEq

/-- One invocation of the gauge callback registered by
`CollectMetrics`: fetch, then convert-and-observe each record.  Returns
the observations recorded before any failure, and the callback's error
result. -/
def runCallback (endpoint : String) (oracle : String → ReqOutcome) :
    List Observation × Option CallbackError :=
  match (fetchShardInfo endpoint oracle).2 with
  | .error m => ([], some (.fetchFailed ("failed to fetch shard info: " ++ m)))
  | .ok shards =>
    let r := observeShards shards []
    (r.1, r.2.map .convertFailed)

/-- Modelled from the spec: the asynchronous-gauge contract of the
metrics SDK (an external collaborator, not part of this repository's
source) — observations recorded during a callback invocation are
committed for the cycle only if the callback returns without error. -/
def committedObservations (endpoint : String) (oracle : String → ReqOutcome) :
    List Observation :=
  match runCallback endpoint oracle with
  | (obs, none) => obs
  | (_, some _) => []

/-- Whether `needle` occurs at the start of `hay`. -/
def beginsWith : List Char → List Char → Bool
  | _, [] => true
  | [], _ :: _ => false
  | c :: cs, d :: ds => c = d && beginsWith cs ds

/-- Whether `needle` occurs contiguously anywhere in `hay` (used to
state that an error message names an index). -/
def containsChars : List Char → List Char → Bool
  | [], needle => beginsWith [] needle
  | c :: rest, needle => beginsWith (c :: rest) needle || containsChars rest needle

/-- Substring containment on strings, via `containsChars`. -/
def containsStr (hay needle : String) : Bool :=
  containsChars hay.data needle.data

/-- Digits of an unsigned decimal numeral folded into its value, most
significant first (used to state what parsing a numeral returns). -/
def natOfDigits (ds : List Char) : ℕ :=
  ds.foldl (fun n c => n * 10 + (c.toNat - 48)) 0

/-- All characters are ASCII decimal digits. -/
def allDigits (ds : List Char) : Bool :=
  ds.all isDigitChar

/-- Characters of the numeral with digits `ds` and optional fractional
digits `fs` (joined by a dot when present). -/
def numeralChars : List Char → Option (List Char) → List Char
  | ds, none => ds
  | ds, some f => ds ++ '.' :: f

/-- Exact value of the numeral with digits `ds` and optional fractional
digits `fs`. -/
def numeralVal (ds : List Char) (fs : Option (List Char)) : ℚ :=
  match fs with
  | none => natOfDigits ds
  | some f => natOfDigits ds + (natOfDigits f : ℚ) / 10 ^ f.length

/-- The recognized unit suffixes and their byte multipliers, in the
order the source checks them: kb = 2^10, mb = 2^20, gb = 2^30. -/
def unitTable : List (List Char × ℚ) :=
  [(['k', 'b'], 1024), (['m', 'b'], 1048576), (['g', 'b'], 1073741824)]

/-- The value a record's store size converts to (meaningful when the
conversion succeeds; used to state the success-path observations). -/
def convertedValue (sh : ShardInfo) : GoFloat :=
  match convertStoreToBytes sh.store with
  | .ok v => v
  | .error _ => .finite 0

theorem dropWhile_eq_self_of (p : Char → Bool) (l : List Char)
    (h : ∀ c ∈ l, p c = false) : l.dropWhile p = l := by
  cases l with
  | nil => rfl
  | cons c r => rw [List.dropWhile_cons, h c (List.mem_cons_self c r)]; simp

theorem dropWhile_eq_nil_of (p : Char → Bool) (l : List Char)
    (h : ∀ c ∈ l, p c = true) : l.dropWhile p = [] := by
  induction l with
  | nil => rfl
  | cons c r ih =>
    rw [List.dropWhile_cons, h c (List.mem_cons_self c r)]
    simpa using ih (fun x hx => h x (List.mem_cons_of_mem c hx))

theorem trimSpace_eq_self (l : List Char) (h : ∀ c ∈ l, isGoSpace c = false) :
    trimSpace l = l := by
  unfold trimSpace
  rw [dropWhile_eq_self_of _ _ h,
    dropWhile_eq_self_of _ _ (fun c hc => h c (List.mem_reverse.mp hc)),
    List.reverse_reverse]

theorem trimSpace_eq_nil (l : List Char) (h : ∀ c ∈ l, isGoSpace c = true) :
    trimSpace l = [] := by
  unfold trimSpace
  rw [dropWhile_eq_nil_of _ _ h]
  rfl

/-- C8: every input that is empty or consists only of whitespace is
converted to `0.0` with no error — absence of a reported size is zero
usage, not a failure. -/
theorem convertStoreToBytes_whitespace (s : String)
    (h : ∀ c ∈ s.data, isGoSpace c = true) :
    convertStoreToBytes s = .ok (.finite 0) := by
  simp [convertStoreToBytes, trimSpace_eq_nil _ h]

/-- Witness for C8 at the spec's two example inputs. -/
theorem convertStoreToBytes_whitespace_witness :
    convertStoreToBytes "" = .ok (.finite 0) ∧
    convertStoreToBytes "   " = .ok (.finite 0) :=
  ⟨convertStoreToBytes_whitespace "" (by decide),
   convertStoreToBytes_whitespace "   " (by decide)⟩

/-- C4 (amended): an input whose trimmed form is non-empty and does not
end in a recognized suffix fails with the unknown-unit error carrying
the trimmed input (the source trims before reaching the error). -/
theorem convertStoreToBytes_unknownUnit (s : String)
    (h0 : trimSpace s.data ≠ [])
    (hk : hasSuffix (trimSpace s.data) ['k', 'b'] = false)
    (hm : hasSuffix (trimSpace s.data) ['m', 'b'] = false)
    (hg : hasSuffix (trimSpace s.data) ['g', 'b'] = false) :
    convertStoreToBytes s = .error (.unknownUnit (String.mk (trimSpace s.data))) := by
  simp [convertStoreToBytes, storeSuffixSplit, h0, hk, hm, hg]

/-- Counterexample to C4 as stated: on an input with surrounding
whitespace the error carries the trimmed string, not the original
untrimmed input. -/
theorem convertStoreToBytes_unknownUnit_counterexample :
    convertStoreToBytes " 10tb " = .error (.unknownUnit "10tb") ∧
    convertStoreToBytes " 10tb " ≠ .error (.unknownUnit " 10tb ") := by
  refine ⟨rfl, fun h => ?_⟩
  have h1 : convertStoreToBytes " 10tb " = .error (.unknownUnit "10tb") := rfl
  rw [h1] at h
  exact absurd (Except.error.inj h) (by decide)

/-- Witness for C4's amended theorem at the spec's example inputs. -/
theorem convertStoreToBytes_unknownUnit_witness :
    convertStoreToBytes "10tb" = .error (.unknownUnit "10tb") ∧
    convertStoreToBytes "abc" = .error (.unknownUnit "abc") :=
  ⟨convertStoreToBytes_unknownUnit "10tb" (by decide) (by decide) (by decide) (by decide),
   convertStoreToBytes_unknownUnit "abc" (by decide) (by decide) (by decide) (by decide)⟩

/-- C6: an input with a recognized suffix whose remainder does not
parse as a float fails with the malformed-number error carrying the
remainder. -/
theorem convertStoreToBytes_malformed (s : String) (m : ℚ) (rem : List Char)
    (hsplit : storeSuffixSplit (trimSpace s.data) = some (m, rem))
    (hparse : parseGoFloat rem = none) :
    convertStoreToBytes s = .error (.malformedNumber (String.mk rem)) := by
  have h0 : trimSpace s.data ≠ [] := by
    intro h
    rw [h] at hsplit
    have hnil : storeSuffixSplit ([] : List Char) = none := rfl
    exact Option.noConfusion (hnil ▸ hsplit)
  simp [convertStoreToBytes, h0, hsplit, hparse]

/-- Witness for C6 at the spec's example input. -/
theorem convertStoreToBytes_malformed_witness :
    convertStoreToBytes "xxkb" = .error (.malformedNumber "xx") :=
  convertStoreToBytes_malformed "xxkb" 1024 ['x', 'x'] rfl rfl

/-- C10: inputs whose remainder is exponent notation, NaN, or a signed
infinity are accepted by the general float parser, so the conversion
returns no error, and the returned value can be non-finite. -/
theorem convertStoreToBytes_nonfinite :
    convertStoreToBytes "1e3kb" = .ok (.finite 1024000) ∧
    convertStoreToBytes "NaNmb" = .ok .nan ∧
    convertStoreToBytes "+Infgb" = .ok (.inf false) ∧
    GoFloat.nan.isFinite = false ∧ (GoFloat.inf false).isFinite = false := by
  refine ⟨?_, rfl, rfl, rfl, rfl⟩
  have h : (mkDecValue false 1 0 3 * 1024 : ℚ) = 1024000 := by
    have h3 : (3 : ℤ).toNat = 3 := rfl
    norm_num [mkDecValue, h3]
  calc convertStoreToBytes "1e3kb"
      = .ok (.finite (mkDecValue false 1 0 3 * 1024)) := rfl
    _ = .ok (.finite 1024000) := by rw [h]

theorem digit_bounds {c : Char} (h : isDigitChar c = true) :
    48 ≤ c.toNat ∧ c.toNat ≤ 57 :=
  of_decide_eq_true h

theorem ne_char_of_toNat {c d : Char} (h : c.toNat ≠ d.toNat) : c ≠ d :=
  fun he => h (congrArg Char.toNat he)

theorem lowerChar_digit {c : Char} (h : isDigitChar c = true) : lowerChar c = c := by
  have hb := digit_bounds h
  unfold lowerChar
  rw [if_neg (by omega)]

theorem digitVal_digit {c : Char} (h : isDigitChar c = true) (base : ℕ) :
    digitVal base c = some (c.toNat - 48) := by
  unfold digitVal
  rw [if_pos h]

theorem isGoSpace_digit {c : Char} (h : isDigitChar c = true) : isGoSpace c = false := by
  have hb := digit_bounds h
  unfold isGoSpace
  exact decide_eq_false (by omega)

theorem special_digit_head {c : Char} (r : List Char) (h : isDigitChar c = true) :
    special (c :: r) = none := by
  have hb := digit_bounds h
  have hl : lowerChar c = c := lowerChar_digit h
  have hi : c ≠ 'i' := ne_char_of_toNat (by have e : Char.toNat 'i' = 105 := rfl; omega)
  have hn : c ≠ 'n' := ne_char_of_toNat (by have e : Char.toNat 'n' = 110 := rfl; omega)
  have hp : c ≠ '+' := ne_char_of_toNat (by have e : Char.toNat '+' = 43 := rfl; omega)
  have hm : c ≠ '-' := ne_char_of_toNat (by have e : Char.toNat '-' = 45 := rfl; omega)
  simp [special, infWord, matchesCI, hl, hp, hm, hi, hn]

theorem foldl_digit_shift (ds : List Char) (m : ℕ) :
    ds.foldl (fun n c => n * 10 + (c.toNat - 48)) m = m * 10 ^ ds.length + natOfDigits ds := by
  induction ds generalizing m with
  | nil => simp [natOfDigits]
  | cons c ds ih =>
    have h2 : natOfDigits (c :: ds) = (c.toNat - 48) * 10 ^ ds.length + natOfDigits ds := by
      unfold natOfDigits
      rw [List.foldl_cons]
      simpa using ih (c.toNat - 48)
    rw [List.foldl_cons, ih, h2, List.length_cons, pow_succ]
    ring

theorem mantLoop_digits (ds rest : List Char) (st : MantState) (h : allDigits ds = true) :
    mantLoop 10 (ds ++ rest) st =
      mantLoop 10 rest
        ⟨st.mant * 10 ^ ds.length + natOfDigits ds,
         st.fracDigits + (if st.sawdot then ds.length else 0),
         st.sawdot,
         st.sawdigits || !ds.isEmpty,
         st.underscores⟩ := by
  induction ds generalizing st with
  | nil =>
    cases st
    simp [natOfDigits]
  | cons c ds ih =>
    obtain ⟨hcd, hds⟩ : isDigitChar c = true ∧ allDigits ds = true := by
      simpa [allDigits] using h
    have hb := digit_bounds hcd
    have h1 : c ≠ '_' := ne_char_of_toNat (by have e : Char.toNat '_' = 95 := rfl; omega)
    have h2 : c ≠ '.' := ne_char_of_toNat (by have e : Char.toNat '.' = 46 := rfl; omega)
    rw [List.cons_append]
    rw [show mantLoop 10 (c :: (ds ++ rest)) st =
        mantLoop 10 (ds ++ rest)
          { st with
            mant := st.mant * 10 + (c.toNat - 48)
            fracDigits := st.fracDigits + (if st.sawdot then 1 else 0)
            sawdigits := true } by
      simp [mantLoop, h1, h2, digitVal_digit hcd]]
    rw [ih _ hds]
    refine congrArg (mantLoop 10 rest) ?_
    have hm : (st.mant * 10 + (c.toNat - 48)) * 10 ^ ds.length + natOfDigits ds =
        st.mant * 10 ^ (c :: ds).length + natOfDigits (c :: ds) := by
      have h3 : natOfDigits (c :: ds) = (c.toNat - 48) * 10 ^ ds.length + natOfDigits ds := by
        unfold natOfDigits
        rw [List.foldl_cons]
        simpa using foldl_digit_shift ds (c.toNat - 48)
      rw [h3, List.length_cons, pow_succ]
      ring
    have hf : st.fracDigits + (if st.sawdot then 1 else 0) +
        (if st.sawdot then ds.length else 0) =
        st.fracDigits + (if st.sawdot then (c :: ds).length else 0) := by
      cases st.sawdot
      · simp
      · simp only [reduceIte, List.length_cons]
        omega
    simp [hm, hf]

theorem mantLoop_digits_init (ds rest : List Char) (h : allDigits ds = true) :
    mantLoop 10 (ds ++ rest) initState =
      mantLoop 10 rest ⟨natOfDigits ds, 0, false, !ds.isEmpty, false⟩ := by
  rw [mantLoop_digits ds rest initState h]
  norm_num [initState]

theorem mantLoop_digits_afterdot (f : List Char) (hfd : allDigits f = true) (n : ℕ) :
    mantLoop 10 f ⟨n, 0, true, true, false⟩ =
      (⟨n * 10 ^ f.length + natOfDigits f, f.length, true, true, false⟩, []) := by
  have h0 := mantLoop_digits f [] ⟨n, 0, true, true, false⟩ hfd
  rw [List.append_nil] at h0
  rw [h0]
  simp [mantLoop]

theorem isEmpty_eq_false_of_ne {ds : List Char} (hds : ds ≠ []) : ds.isEmpty = false := by
  cases ds with
  | nil => exact absurd rfl hds
  | cons a b => rfl

theorem mantLoop_numeral_int (ds : List Char) (had : allDigits ds = true) (hds : ds ≠ []) :
    mantLoop 10 ds initState = (⟨natOfDigits ds, 0, false, true, false⟩, []) := by
  have h0 := mantLoop_digits_init ds [] had
  rw [List.append_nil] at h0
  rw [h0, isEmpty_eq_false_of_ne hds]
  simp [mantLoop]

theorem mantLoop_numeral_frac (ds f : List Char) (had : allDigits ds = true)
    (hds : ds ≠ []) (hfd : allDigits f = true) :
    mantLoop 10 (ds ++ '.' :: f) initState =
      (⟨natOfDigits ds * 10 ^ f.length + natOfDigits f, f.length, true, true, false⟩, []) := by
  rw [mantLoop_digits_init ds ('.' :: f) had, isEmpty_eq_false_of_ne hds]
  have hdot : mantLoop 10 ('.' :: f) ⟨natOfDigits ds, 0, false, !false, false⟩ =
      mantLoop 10 f ⟨natOfDigits ds, 0, true, true, false⟩ := by
    simp [mantLoop]
  rw [hdot, mantLoop_digits_afterdot f hfd]

theorem numberCore_dec (neg : Bool) (l orig : List Char)
    (h : ∀ a x c rest, l = a :: x :: c :: rest → ¬(a = '0' ∧ lowerChar x = 'x')) :
    numberCore neg l orig = decCore neg l orig := by
  unfold numberCore
  split
  · next a x c rest => rw [if_neg (h a x c rest rfl)]
  · rfl

theorem mkDecValue_int (n : ℕ) : mkDecValue false n 0 0 = (n : ℚ) := by
  simp [mkDecValue]

theorem mkDecValue_frac (a b k : ℕ) :
    mkDecValue false (a * 10 ^ k + b) k 0 = (a : ℚ) + (b : ℚ) / 10 ^ k := by
  have h10 : ((10 : ℚ)) ^ k ≠ 0 := pow_ne_zero _ (by norm_num)
  simp only [mkDecValue]
  norm_num
  field_simp

theorem classes_not_x {x : Char} (h : isDigitChar x = true ∨ x = '.') :
    lowerChar x ≠ 'x' := by
  rcases h with h | rfl
  · rw [lowerChar_digit h]
    have hb := digit_bounds h
    exact ne_char_of_toNat (by have e : Char.toNat 'x' = 120 := rfl; omega)
  · decide

theorem classes_not_space {x : Char} (h : isDigitChar x = true ∨ x = '.') :
    isGoSpace x = false := by
  rcases h with h | rfl
  · exact isGoSpace_digit h
  · decide

theorem numeralChars_classes (ds : List Char) (fs : Option (List Char))
    (had : allDigits ds = true)
    (hfs : ∀ f, fs = some f → f ≠ [] ∧ allDigits f = true) :
    ∀ x ∈ numeralChars ds fs, isDigitChar x = true ∨ x = '.' := by
  intro x hx
  cases fs with
  | none =>
    exact Or.inl (List.all_eq_true.mp had x (by simpa [numeralChars] using hx))
  | some f =>
    simp only [numeralChars, List.mem_append, List.mem_cons] at hx
    rcases hx with hx | hx | hx
    · exact Or.inl (List.all_eq_true.mp had x hx)
    · exact Or.inr hx
    · exact Or.inl (List.all_eq_true.mp (hfs f rfl).2 x hx)

theorem parseGoFloat_numeral (ds : List Char) (fs : Option (List Char))
    (hds : ds ≠ []) (had : allDigits ds = true)
    (hfs : ∀ f, fs = some f → f ≠ [] ∧ allDigits f = true) :
    parseGoFloat (numeralChars ds fs) = some (.finite (numeralVal ds fs)) := by
  obtain ⟨c, ds', rfl⟩ : ∃ c ds', ds = c :: ds' := by
    cases ds with
    | nil => exact absurd rfl hds
    | cons a b => exact ⟨a, b, rfl⟩
  obtain ⟨hcd, hds'⟩ : isDigitChar c = true ∧ allDigits ds' = true := by
    simpa [allDigits] using had
  have hb := digit_bounds hcd
  have hp : c ≠ '+' := ne_char_of_toNat (by have e : Char.toNat '+' = 43 := rfl; omega)
  have hm : c ≠ '-' := ne_char_of_toNat (by have e : Char.toNat '-' = 45 := rfl; omega)
  have hclasses := numeralChars_classes (c :: ds') fs had hfs
  obtain ⟨tail, hsh⟩ : ∃ tail, numeralChars (c :: ds') fs = c :: tail := by
    cases fs with
    | none => exact ⟨ds', rfl⟩
    | some f => exact ⟨ds' ++ '.' :: f, by simp [numeralChars]⟩
  have hnc : numberCore false (numeralChars (c :: ds') fs) (numeralChars (c :: ds') fs) =
      decCore false (numeralChars (c :: ds') fs) (numeralChars (c :: ds') fs) := by
    refine numberCore_dec false _ _ (fun a x c2 rest heq hax => ?_)
    have hxmem : x ∈ numeralChars (c :: ds') fs := by
      rw [heq]
      exact List.mem_cons_of_mem a (List.mem_cons_self x (c2 :: rest))
    exact classes_not_x (hclasses x hxmem) hax.2
  have hparse : parseNumber (numeralChars (c :: ds') fs) =
      decCore false (numeralChars (c :: ds') fs) (numeralChars (c :: ds') fs) := by
    rw [hsh] at hnc ⊢
    simp [parseNumber, hp, hm]
    rw [← hnc]
  have hspec : special (numeralChars (c :: ds') fs) = none := by
    rw [hsh]
    exact special_digit_head tail hcd
  rw [parseGoFloat, hspec, hparse]
  cases fs with
  | none =>
    have hml := mantLoop_numeral_int (c :: ds') had hds
    simp [numeralChars] at hml ⊢
    simp [decCore, hml, finishNum, mkDecValue_int, numeralVal]
  | some f =>
    obtain ⟨hfne, hfd⟩ := hfs f rfl
    have hml := mantLoop_numeral_frac (c :: ds') f had hds hfd
    simp only [List.cons_append] at hml
    simp only [numeralChars]
    simp [decCore, hml, finishNum, mkDecValue_frac, numeralVal]

theorem hasSuffix_append (num su : List Char) : hasSuffix (num ++ su) su = true := by
  unfold hasSuffix
  have h1 : (num ++ su).length - su.length = num.length := by
    simp [List.length_append]
  rw [h1, List.drop_left]
  simp [List.length_append]

theorem hasSuffix_append_ne (num su su' : List Char) (hlen : su.length = su'.length)
    (hne : su ≠ su') : hasSuffix (num ++ su) su' = false := by
  unfold hasSuffix
  have h1 : (num ++ su).length - su'.length = num.length := by
    simp [List.length_append, hlen]
  rw [h1, List.drop_left]
  simp [hne]

theorem trimSuffix_append (num su : List Char) : trimSuffix (num ++ su) su = num := by
  unfold trimSuffix
  rw [hasSuffix_append]
  have h1 : (num ++ su).length - su.length = num.length := by
    simp [List.length_append]
  rw [h1]
  simp [List.take_left]

theorem storeSuffixSplit_append (num su : List Char) (m : ℚ) (hsu : (su, m) ∈ unitTable) :
    storeSuffixSplit (num ++ su) = some (m, num) := by
  simp only [unitTable, List.mem_cons, List.not_mem_nil, or_false, Prod.mk.injEq] at hsu
  rcases hsu with ⟨rfl, rfl⟩ | ⟨rfl, rfl⟩ | ⟨rfl, rfl⟩
  · unfold storeSuffixSplit
    rw [hasSuffix_append, trimSuffix_append]
    simp
  · unfold storeSuffixSplit
    rw [hasSuffix_append_ne num ['m', 'b'] ['k', 'b'] rfl (by decide),
      hasSuffix_append, trimSuffix_append]
    simp
  · unfold storeSuffixSplit
    rw [hasSuffix_append_ne num ['g', 'b'] ['k', 'b'] rfl (by decide),
      hasSuffix_append_ne num ['g', 'b'] ['m', 'b'] rfl (by decide),
      hasSuffix_append, trimSuffix_append]
    simp

theorem unit_chars_not_space (su : List Char) (m : ℚ) (hsu : (su, m) ∈ unitTable) :
    ∀ x ∈ su, isGoSpace x = false := by
  simp only [unitTable, List.mem_cons, List.not_mem_nil, or_false, Prod.mk.injEq] at hsu
  rcases hsu with ⟨rfl, _⟩ | ⟨rfl, _⟩ | ⟨rfl, _⟩ <;> decide

/-- C1: for every input of the form numeral-plus-unit, with unit one of
kb, mb, gb, the conversion succeeds and returns the numeral's exact
value multiplied by 2^10, 2^20, or 2^30 respectively. -/
theorem convertStoreToBytes_numeral (ds : List Char) (fs : Option (List Char))
    (su : List Char) (m : ℚ) (hsu : (su, m) ∈ unitTable)
    (hds : ds ≠ []) (had : allDigits ds = true)
    (hfs : ∀ f, fs = some f → f ≠ [] ∧ allDigits f = true) :
    convertStoreToBytes (String.mk (numeralChars ds fs ++ su)) =
      .ok (.finite (numeralVal ds fs * m)) := by
  have hts : trimSpace (numeralChars ds fs ++ su) = numeralChars ds fs ++ su := by
    refine trimSpace_eq_self _ (fun x hx => ?_)
    rcases List.mem_append.mp hx with hx | hx
    · exact classes_not_space (numeralChars_classes ds fs had hfs x hx)
    · exact unit_chars_not_space su m hsu x hx
  have hne : numeralChars ds fs ++ su ≠ [] := by
    obtain ⟨c, ds', rfl⟩ : ∃ c ds', ds = c :: ds' := by
      cases ds with
      | nil => exact absurd rfl hds
      | cons a b => exact ⟨a, b, rfl⟩
    cases fs <;> simp [numeralChars]
  have hdata : (String.mk (numeralChars ds fs ++ su)).data = numeralChars ds fs ++ su := rfl
  simp only [convertStoreToBytes, hdata, hts]
  rw [if_neg hne, storeSuffixSplit_append _ _ _ hsu]
  simp [parseGoFloat_numeral ds fs hds had hfs, GoFloat.mulPos]

/-- Witness for C1 at the spec's three example inputs. -/
theorem convertStoreToBytes_numeral_witness :
    convertStoreToBytes "512kb" = .ok (.finite 524288) ∧
    convertStoreToBytes "1.5gb" = .ok (.finite 1610612736) ∧
    convertStoreToBytes "0mb" = .ok (.finite 0) := by
  refine ⟨?_, ?_, ?_⟩
  · have h := convertStoreToBytes_numeral ['5', '1', '2'] none ['k', 'b'] 1024
      (by simp [unitTable]) (by decide) (by decide) (fun f hf => Option.noConfusion hf)
    have hv : numeralVal ['5', '1', '2'] none * (1024 : ℚ) = 524288 := by
      have e : natOfDigits ['5', '1', '2'] = 512 := rfl
      simp [numeralVal, e]
      norm_num
    exact h.trans (by rw [hv])
  · have h := convertStoreToBytes_numeral ['1'] (some ['5']) ['g', 'b'] 1073741824
      (by simp [unitTable]) (by decide) (by decide)
      (fun f hf => by cases hf; exact ⟨by decide, by decide⟩)
    have hv : numeralVal ['1'] (some ['5']) * (1073741824 : ℚ) = 1610612736 := by
      have e1 : natOfDigits ['1'] = 1 := rfl
      have e2 : natOfDigits ['5'] = 5 := rfl
      simp [numeralVal, e1, e2]
      norm_num
    exact h.trans (by rw [hv])
  · have h := convertStoreToBytes_numeral ['0'] none ['m', 'b'] 1048576
      (by simp [unitTable]) (by decide) (by decide) (fun f hf => Option.noConfusion hf)
    have hv : numeralVal ['0'] none * (1048576 : ℚ) = 0 := by
      have e : natOfDigits ['0'] = 0 := rfl
      simp [numeralVal, e]
    exact h.trans (by rw [hv])

theorem string_data_append (a b : String) : (a ++ b).data = a.data ++ b.data := by
  cases a
  cases b
  rfl

theorem beginsWith_refl (l : List Char) : beginsWith l l = true := by
  induction l with
  | nil => rfl
  | cons c r ih => simp [beginsWith, ih]

theorem beginsWith_refl_append (needle b : List Char) :
    beginsWith (needle ++ b) needle = true := by
  induction needle with
  | nil => cases b <;> rfl
  | cons c r ih => simp [beginsWith, ih]

theorem containsChars_self_append (needle b : List Char) :
    containsChars (needle ++ b) needle = true := by
  cases needle with
  | nil => cases b <;> rfl
  | cons n ns =>
    have hb : beginsWith (n :: (ns ++ b)) (n :: ns) = true := by
      simp [beginsWith, beginsWith_refl_append]
    simp [containsChars, hb]

theorem containsChars_append_left (a x needle : List Char)
    (h : containsChars x needle = true) : containsChars (a ++ x) needle = true := by
  induction a with
  | nil => simpa using h
  | cons c r ih => simp [containsChars, ih]

theorem fetchLoop_ok (endpoint : String) (oracle : String → ReqOutcome)
    (indices : List String) (res : String → List ShardInfo)
    (h : ∀ i ∈ indices, oracle i = .okResp (res i)) (acc : List ShardInfo) :
    fetchLoop endpoint oracle indices acc =
      (indices.map (shardURL endpoint), .ok (acc ++ (indices.map res).flatten)) := by
  induction indices generalizing acc with
  | nil => simp [fetchLoop]
  | cons i rest ih =>
    have hi := h i (List.mem_cons_self i rest)
    have hrest : ∀ j ∈ rest, oracle j = .okResp (res j) :=
      fun j hj => h j (List.mem_cons_of_mem i hj)
    simp [fetchLoop, hi, ih hrest (acc ++ res i)]

/-- C7: on an all-success run, the fetch loop issues exactly one GET
request per index name, in order, to the catalog URL built from the
endpoint and the index name, and returns the per-index record lists
concatenated in source order. -/
theorem fetchShardInfo_success (endpoint : String) (oracle : String → ReqOutcome)
    (indices : List String) (res : String → List ShardInfo)
    (h : ∀ i ∈ indices, oracle i = .okResp (res i)) :
    fetchLoop endpoint oracle indices [] =
      (indices.map (fun i => endpoint ++ "/_cat/shards/" ++ i ++ "?format=json"),
       .ok (indices.map res).flatten) := by
  rw [fetchLoop_ok endpoint oracle indices res h []]
  simp [shardURL]

/-- C3: if every index before `bad` fetches cleanly and `bad` fails (at
request construction, transport, or decode), the whole loop returns an
error — discarding all records already decoded — and no request is ever
issued for any index after `bad`. -/
theorem fetchLoop_abort (endpoint : String) (oracle : String → ReqOutcome)
    (pre : List String) (bad : String) (post : List String) (acc : List ShardInfo)
    (res : String → List ShardInfo)
    (hpre : ∀ i ∈ pre, oracle i = .okResp (res i))
    (hbad : (oracle bad).isFailure = true) :
    (∃ e, (fetchLoop endpoint oracle (pre ++ bad :: post) acc).2 = .error e) ∧
    (fetchLoop endpoint oracle (pre ++ bad :: post) acc).1 =
      pre.map (shardURL endpoint) ++
        (if (oracle bad).issuesRequest then [shardURL endpoint bad] else []) := by
  induction pre generalizing acc with
  | nil =>
    simp only [List.nil_append, List.map_nil]
    cases hb : oracle bad with
    | okResp l =>
      rw [hb] at hbad
      exact absurd hbad (by simp [ReqOutcome.isFailure])
    | newReqFail m => simp [fetchLoop, hb, ReqOutcome.issuesRequest]
    | doFail inner => simp [fetchLoop, hb, ReqOutcome.issuesRequest]
    | decodeFail m => simp [fetchLoop, hb, ReqOutcome.issuesRequest]
  | cons i rest ih =>
    have hi := hpre i (List.mem_cons_self i rest)
    have hrest : ∀ j ∈ rest, oracle j = .okResp (res j) :=
      fun j hj => hpre j (List.mem_cons_of_mem i hj)
    obtain ⟨⟨e, he⟩, ht⟩ := ih (acc ++ res i) hrest
    refine ⟨⟨e, ?_⟩, ?_⟩
    · simp [fetchLoop, hi, he]
    · simp [fetchLoop, hi, ht]

theorem containsChars_self (l : List Char) : containsChars l l = true := by
  cases l with
  | nil => rfl
  | cons c r => simp [containsChars, beginsWith_refl]

theorem fetchLoop_skip (endpoint : String) (oracle : String → ReqOutcome)
    (pre rest : List String) (acc : List ShardInfo)
    (res : String → List ShardInfo)
    (hpre : ∀ i ∈ pre, oracle i = .okResp (res i)) :
    (fetchLoop endpoint oracle (pre ++ rest) acc).2 =
      (fetchLoop endpoint oracle rest (acc ++ (pre.map res).flatten)).2 := by
  induction pre generalizing acc with
  | nil => simp
  | cons i r ih =>
    have hi := hpre i (List.mem_cons_self i r)
    simp [fetchLoop, hi, ih (acc ++ res i) (fun j hj => hpre j (List.mem_cons_of_mem i hj))]

/-- C9 (amended): when every index before `bad` fetches cleanly, a
transport-level failure on `bad` yields an error wrapping the
underlying transport error, whose text contains the request URL and
hence the offending index name; a decode failure yields the static
prefix plus the decoder's message, which does not in general name the
index. -/
theorem fetchLoop_error_content (endpoint : String) (oracle : String → ReqOutcome)
    (pre : List String) (bad : String) (post : List String) (acc : List ShardInfo)
    (res : String → List ShardInfo)
    (hpre : ∀ i ∈ pre, oracle i = .okResp (res i)) :
    (∀ inner, oracle bad = .doFail inner →
      ∃ e, (fetchLoop endpoint oracle (pre ++ bad :: post) acc).2 = .error e ∧
        containsChars e.data bad.data = true ∧
        containsChars e.data inner.data = true) ∧
    (∀ msg, oracle bad = .decodeFail msg →
      (fetchLoop endpoint oracle (pre ++ bad :: post) acc).2 =
        .error ("failed to decode response: " ++ msg)) := by
  have hskip := fetchLoop_skip endpoint oracle pre (bad :: post) acc res hpre
  have hd : ∀ inner : String, (doFailMsg (shardURL endpoint bad) inner).data =
      "failed to execute request: Get \"".data ++
        (endpoint.data ++ ("/_cat/shards/".data ++ (bad.data ++
          ("?format=json".data ++ ("\": ".data ++ inner.data))))) := by
    intro inner
    simp [doFailMsg, shardURL, string_data_append, List.append_assoc]
  constructor
  · intro inner hb
    refine ⟨doFailMsg (shardURL endpoint bad) inner, ?_, ?_, ?_⟩
    · rw [hskip]
      simp [fetchLoop, hb]
    · rw [hd inner]
      apply containsChars_append_left
      apply containsChars_append_left
      apply containsChars_append_left
      exact containsChars_self_append _ _
    · rw [hd inner]
      apply containsChars_append_left
      apply containsChars_append_left
      apply containsChars_append_left
      apply containsChars_append_left
      apply containsChars_append_left
      apply containsChars_append_left
      exact containsChars_self _
  · intro msg hb
    rw [hskip]
    simp [fetchLoop, hb]

theorem observeShards_error (l : List ShardInfo) (acc : List Observation)
    (h : ∃ sh ∈ l, ∃ e, convertStoreToBytes sh.store = .error e) :
    (observeShards l acc).2.isSome = true := by
  induction l generalizing acc with
  | nil =>
    obtain ⟨sh, hm, _⟩ := h
    exact absurd hm (List.not_mem_nil sh)
  | cons sh rest ih =>
    obtain ⟨sh', hm, e, he⟩ := h
    rcases List.mem_cons.mp hm with rfl | hm'
    · cases hc : convertStoreToBytes sh'.store with
      | error e2 => simp [observeShards, hc]
      | ok v =>
        rw [hc] at he
        exact Except.noConfusion he
    · cases hc : convertStoreToBytes sh.store with
      | error e2 => simp [observeShards, hc]
      | ok v =>
        simp only [observeShards, hc]
        exact ih _ ⟨sh', hm', e, he⟩

theorem observeShards_ok (l : List ShardInfo) (acc : List Observation)
    (h : ∀ sh ∈ l, ∃ v, convertStoreToBytes sh.store = .ok v) :
    observeShards l acc =
      (acc ++ l.map (fun sh => obsOf sh (convertedValue sh)), none) := by
  induction l generalizing acc with
  | nil => simp [observeShards]
  | cons sh rest ih =>
    obtain ⟨v, hv⟩ := h sh (List.mem_cons_self sh rest)
    have hcv : convertedValue sh = v := by simp [convertedValue, hv]
    simp [observeShards, hv, hcv,
      ih (acc ++ [obsOf sh v]) (fun x hx => h x (List.mem_cons_of_mem sh hx))]

/-- C2: if the fetch succeeds but converting some fetched record's
store size fails, the callback invocation returns an error and zero
observations are committed for the cycle — the observations already
recorded for earlier records are not retained. -/
theorem callback_error_no_commit (endpoint : String) (oracle : String → ReqOutcome)
    (shards : List ShardInfo)
    (hfetch : (fetchShardInfo endpoint oracle).2 = .ok shards)
    (hbad : ∃ sh ∈ shards, ∃ e, convertStoreToBytes sh.store = .error e) :
    (runCallback endpoint oracle).2.isSome = true ∧
      committedObservations endpoint oracle = [] := by
  have h1 : (runCallback endpoint oracle).2.isSome = true := by
    unfold runCallback
    rw [hfetch]
    simp [observeShards_error shards [] hbad]
  refine ⟨h1, ?_⟩
  unfold committedObservations
  rcases hrc : runCallback endpoint oracle with ⟨obs, err⟩
  cases err with
  | none =>
    rw [hrc] at h1
    simp at h1
  | some e => simp

/-- C5: on a successful run returning the records of the two configured
indices, the committed observations are exactly one per record, in
fetch order, with the converted value and the six labels copied
verbatim from the record. -/
theorem callback_success_observations (endpoint : String) (oracle : String → ReqOutcome)
    (l1 l2 : List ShardInfo)
    (h1 : oracle "otlp-metrics" = .okResp l1) (h2 : oracle "otlp-logs" = .okResp l2)
    (hconv : ∀ sh ∈ l1 ++ l2, ∃ v, convertStoreToBytes sh.store = .ok v) :
    committedObservations endpoint oracle =
      (l1 ++ l2).map (fun sh => obsOf sh (convertedValue sh)) ∧
    (committedObservations endpoint oracle).length = l1.length + l2.length := by
  have hfetch : (fetchShardInfo endpoint oracle).2 = .ok (l1 ++ l2) := by
    unfold fetchShardInfo
    simp [fetchLoop, h1, h2]
  have hrc : runCallback endpoint oracle =
      ((l1 ++ l2).map (fun sh => obsOf sh (convertedValue sh)), none) := by
    unfold runCallback
    rw [hfetch]
    simp [observeShards_ok (l1 ++ l2) [] hconv]
  constructor
  · unfold committedObservations
    rw [hrc]
  · unfold committedObservations
    rw [hrc]
    simp

/-- Sample record for the metrics index with a convertible store size. -/
def sampleShard1 : ShardInfo :=
  ⟨"otlp-metrics", "0", "p", "STARTED", "100", "512kb", "10.0.0.1", "node-1"⟩

/-- Sample record for the logs index with a convertible store size. -/
def sampleShard2 : ShardInfo :=
  ⟨"otlp-logs", "1", "r", "STARTED", "25", "1mb", "10.0.0.2", "node-2"⟩

/-- Sample record whose store size does not convert. -/
def sampleBadShard : ShardInfo :=
  ⟨"otlp-metrics", "0", "p", "STARTED", "10", "abc", "10.0.0.1", "node-1"⟩

/-- Per-index record lists for the success-path witnesses. -/
def sampleRes : String → List ShardInfo :=
  fun i => if i = "otlp-metrics" then [sampleShard1] else [sampleShard2]

/-- Oracle that answers every request successfully. -/
def sampleOracle : String → ReqOutcome :=
  fun i => .okResp (sampleRes i)

/-- Oracle whose first index returns a record that fails conversion. -/
def sampleBadOracle : String → ReqOutcome :=
  fun i => if i = "otlp-metrics" then .okResp [sampleBadShard] else .okResp []

/-- Witness for C7 on a concrete oracle: one request per index in
order, records concatenated in source order. -/
theorem fetchShardInfo_success_witness :
    fetchLoop "http://opensearch:9200" sampleOracle ["otlp-metrics", "otlp-logs"] [] =
      (["http://opensearch:9200/_cat/shards/otlp-metrics?format=json",
        "http://opensearch:9200/_cat/shards/otlp-logs?format=json"],
       .ok [sampleShard1, sampleShard2]) :=
  (fetchShardInfo_success "http://opensearch:9200" sampleOracle
    ["otlp-metrics", "otlp-logs"] sampleRes (fun _ _ => rfl)).trans rfl

/-- Witness for C3 on a concrete oracle failing at the second index:
the loop errors and issues no request beyond the failing one. -/
theorem fetchLoop_abort_witness :
    (∃ e, (fetchLoop "http://opensearch:9200"
        (fun i => if i = "otlp-logs" then .decodeFail "EOF" else .okResp [])
        (["otlp-metrics"] ++ "otlp-logs" :: []) []).2 = .error e) ∧
    (fetchLoop "http://opensearch:9200"
        (fun i => if i = "otlp-logs" then .decodeFail "EOF" else .okResp [])
        (["otlp-metrics"] ++ "otlp-logs" :: []) []).1 =
      ["http://opensearch:9200/_cat/shards/otlp-metrics?format=json",
       "http://opensearch:9200/_cat/shards/otlp-logs?format=json"] := by
  obtain ⟨he, ht⟩ := fetchLoop_abort "http://opensearch:9200"
    (fun i => if i = "otlp-logs" then .decodeFail "EOF" else .okResp [])
    ["otlp-metrics"] "otlp-logs" [] [] (fun _ => [])
    (by intro i hi; rcases List.mem_singleton.mp hi with rfl; rfl) rfl
  exact ⟨he, ht.trans rfl⟩

/-- Witness for C9's amended theorem on a concrete transport failure:
the error text contains both the index name and the wrapped transport
error. -/
theorem fetchLoop_error_content_witness :
    ∃ e, (fetchLoop "http://opensearch:9200"
        (fun _ => ReqOutcome.doFail "connection refused")
        ([] ++ "otlp-metrics" :: ["otlp-logs"]) []).2 = .error e ∧
      containsChars e.data "otlp-metrics".data = true ∧
      containsChars e.data "connection refused".data = true :=
  (fetchLoop_error_content "http://opensearch:9200"
    (fun _ => ReqOutcome.doFail "connection refused") [] "otlp-metrics" ["otlp-logs"]
    [] (fun _ => []) (fun i hi => absurd hi (List.not_mem_nil i))).1
    "connection refused" rfl

/-- Counterexample to C9 as stated: a decode failure (as produced by an
empty response body, where Go's json decoder reports EOF) yields an
error that does not contain the offending index name. -/
theorem fetch_decode_error_counterexample :
    (fetchShardInfo "http://opensearch:9200" (fun _ => .decodeFail "EOF")).2 =
        .error "failed to decode response: EOF" ∧
      containsStr "failed to decode response: EOF" "otlp-metrics" = false :=
  ⟨rfl, by decide⟩

/-- Witness for C2 on a concrete oracle: the first index returns one
record whose store size fails conversion; the callback errors and
commits nothing. -/
theorem callback_error_no_commit_witness :
    (runCallback "http://opensearch:9200" sampleBadOracle).2.isSome = true ∧
      committedObservations "http://opensearch:9200" sampleBadOracle = [] :=
  callback_error_no_commit "http://opensearch:9200" sampleBadOracle [sampleBadShard]
    rfl ⟨sampleBadShard, List.mem_cons_self _ _, ⟨.unknownUnit "abc", rfl⟩⟩

/-- Witness for C5 on a concrete oracle returning one record per
configured index. -/
theorem callback_success_observations_witness :
    committedObservations "http://opensearch:9200" sampleOracle =
      ([sampleShard1] ++ [sampleShard2]).map
        (fun sh => obsOf sh (convertedValue sh)) ∧
    (committedObservations "http://opensearch:9200" sampleOracle).length =
      [sampleShard1].length + [sampleShard2].length :=
  callback_success_observations "http://opensearch:9200" sampleOracle
    [sampleShard1] [sampleShard2] rfl rfl
    (by
      intro sh hsh
      rcases List.mem_append.mp hsh with hsh | hsh
      · rcases List.mem_singleton.mp hsh with rfl
        exact ⟨_, rfl⟩
      · rcases List.mem_singleton.mp hsh with rfl
        exact ⟨_, rfl⟩)
